import Mathlib

/-!
Verification of `SoAPy/analysis.py` against its specification.

The module provides six stateless numerical routines over "spectrum
collections": parallel indexable collections `frequencies[i]`,
`intensities[i]` of real-number sequences.  We embed the routines over `ℚ`
(Python floats are modelled by exact rationals so that algebraic claims can
be settled exactly); `math.sqrt` / `np.sqrt` is modelled by `Real.sqrt`, so
the two routines that take a square root return values in `ℝ`.

Python list/array indexing raises `IndexError` when out of bounds; every
theorem below only exercises in-bounds accesses, so we model `l[i]` by
`(l.get? i).getD 0` (respectively `getD []` for the outer collections).
Python's `NameError` for a variable read before any assignment (the `sign`
variable in `wrong_signs` and `normal_mode_reordering`, and the variance
variables in `compute_statistics` when the loop body never runs) is modelled
by an `Option` result, `none` meaning the function raises instead of
returning.
-/

/-- Python `xs[i]` for a sequence of numbers (in-bounds in all uses below). -/
def getQ (l : List ℚ) (i : ℕ) : ℚ := (l.get? i).getD 0

/-- Python `coll[i]` for the outer collection of spectra. -/
def idxL (l : List (List ℚ)) (i : ℕ) : List ℚ := (l.get? i).getD []

/-- `np.trapz(y, x = x)`: trapezoidal quadrature
`Σ (x[i+1] - x[i]) * (y[i] + y[i+1]) / 2` over consecutive samples
(numpy requires `y` and `x` of equal length; all uses below satisfy that). -/
def trapz : List ℚ → List ℚ → ℚ
  | y0 :: y1 :: ys, x0 :: x1 :: xs => (x1 - x0) * (y0 + y1) / 2 + trapz (y1 :: ys) (x1 :: xs)
  | _, _ => 0

/-- Pointwise product of two numpy arrays (equal length in all uses below). -/
def arrMul (a b : List ℚ) : List ℚ := List.zipWith (fun x y => x * y) a b

/-!
## `opt_rot_averaging` (analysis.py lines 189-209)

`dir_parameters[a][5]` is the repeat count.  The code applies `len(...)`,
`int(...)` and `float(...)` to it, so in the data model it is a decimal
string (e.g. `"2"`).  The code observes that string only through the parsed
numeric value (`int`/`float`, which agree on the integer strings that occur)
and through its character count `len`, so we embed it as that pair of
observables.
-/

/-- The repeat-count entry `dir_parameters[a][5]`, a decimal string seen
through the code's two observations of it: `val` is `int(p5) = float(p5)`
and `strLen` is `len(p5)`, the number of characters (for the string `"2"`,
`val = 2` and `strLen = 1`). -/
structure RepeatCount where
  val : ℕ
  strLen : ℕ
  deriving DecidableEq

/-- One molecule's entry of `dir_parameters`: field 5 (the repeat count) and
field 6 (a sequence whose length is the block size). -/
structure OptRotParams where
  p5 : RepeatCount
  p6 : List ℚ
  deriving DecidableEq

/-- Default parameter entry (out-of-bounds reads never happen in uses below). -/
def defaultParams : OptRotParams := ⟨⟨0, 0⟩, []⟩

/-- Python `dir_parameters[a]`. -/
def idxP (l : List OptRotParams) (i : ℕ) : OptRotParams := (l.get? i).getD defaultParams

/-- The inner channel loop of `opt_rot_averaging`:
`for c in range(len(averages)): averages[c] += intens[(d*b)+c] / scale`. -/
def optRotChannels (intens : List ℚ) (d b : ℕ) (scale : ℚ) :
    ℕ → List ℚ → List ℚ
  | _, [] => []
  | c, v :: vs => (v + getQ intens (d * b + c) / scale) :: optRotChannels intens d b scale (c + 1) vs

/-- The per-molecule body of `opt_rot_averaging`: starting from
`averages = [0]*len(p[6])`, run `b` from `0` while `b < int(p[5])`, and for
each channel `c` add `intens[(d*b)+c]` scaled by `1/float(p[5])` (times
`1/molecule_MM` when `molecule_MM ≠ 0`), where `d = len(p[5])` is the
length of the field-5 STRING, exactly as the source computes it. -/
def optRotMolecule (intens : List ℚ) (p : OptRotParams) (molecule_MM : ℚ) : List ℚ :=
  let d := p.p5.strLen
  let scale : ℚ := if molecule_MM ≠ 0 then (p.p5.val : ℚ) * molecule_MM else (p.p5.val : ℚ)
  (List.range p.p5.val).foldl
    (fun averages b => optRotChannels intens d b scale 0 averages)
    (List.replicate p.p6.length 0)

/-- `opt_rot_averaging(dir_intensities, dir_parameters, dir_list, molecule_MM)`:
for each `a in range(len(dir_list))` compute the molecule's averages and
`extend` the overall result with them.  `dir_list` is read only through `len`. -/
def opt_rot_averaging {α : Type} (dir_intensities : List (List ℚ))
    (dir_parameters : List OptRotParams) (dir_list : List α) (molecule_MM : ℚ) :
    List ℚ :=
  (List.range dir_list.length).foldl
    (fun acc a => acc ++ optRotMolecule (idxL dir_intensities a) (idxP dir_parameters a) molecule_MM)
    []

/-- C1: the spec's own example refutes the claim on the code.  With
repeat count the string `"2"` (numeric value 2, string length 1), block
size 2 and `intensities = [1,2,3,4]`, the code strides consecutive
"blocks" by `d = len("2") = 1`, not by the block size, and returns
`[3/2, 5/2]` instead of the claimed `[2, 3]` (mass flag `molecule_MM = 0`). -/
theorem opt_rot_averaging_stride_bug :
    opt_rot_averaging [[1, 2, 3, 4]] [⟨⟨2, 1⟩, [0, 0]⟩] [(0 : ℕ)] 0 = [3/2, 5/2] ∧
      opt_rot_averaging [[1, 2, 3, 4]] [⟨⟨2, 1⟩, [0, 0]⟩] [(0 : ℕ)] 0 ≠ [2, 3] := by
  have h : opt_rot_averaging [[1, 2, 3, 4]] [⟨⟨2, 1⟩, [0, 0]⟩] [(0 : ℕ)] 0 = [3/2, 5/2] := by
    simp [opt_rot_averaging, optRotMolecule, optRotChannels, idxL, idxP, getQ,
      defaultParams, List.range_succ]
    norm_num
  refine ⟨h, ?_⟩
  rw [h]
  intro hc
  have := List.head_eq_of_cons_eq hc
  norm_num at this

/-- C9: the result of `opt_rot_averaging` depends on the molecule list only
through its length: two molecule lists of equal length (of any element
types) with identical intensities, parameters and molar mass give identical
outputs. -/
theorem opt_rot_averaging_list_length_only {α β : Type}
    (dir_intensities : List (List ℚ)) (dir_parameters : List OptRotParams)
    (l₁ : List α) (l₂ : List β) (molecule_MM : ℚ)
    (h : l₁.length = l₂.length) :
    opt_rot_averaging dir_intensities dir_parameters l₁ molecule_MM =
      opt_rot_averaging dir_intensities dir_parameters l₂ molecule_MM := by
  simp only [opt_rot_averaging, h]

/-- Witness for C9 at a concrete input: a list of strings and a list of
naturals of the same length give the same averages. -/
theorem opt_rot_averaging_list_length_only_witness :
    (["x"] : List String).length = ([7] : List ℕ).length ∧
      opt_rot_averaging [[1, 2]] [⟨⟨1, 1⟩, [0, 0]⟩] ["x"] 0 =
        opt_rot_averaging [[1, 2]] [⟨⟨1, 1⟩, [0, 0]⟩] [7] 0 :=
  ⟨by decide,
    opt_rot_averaging_list_length_only [[1, 2]] [⟨⟨1, 1⟩, [0, 0]⟩] ["x"] [7] 0 (by decide)⟩

/-!
## The overlap family (analysis.py lines 14-87)

All three routines read the sample intensity `intensities[sample_index]`,
the reference intensity `intensities[reference_index]` and integrate on the
reference frequency axis `frequencies[reference_index]`.
-/

/-- `single_denominator_overlap`:
`trapz(ref·sam, x=ref_freq) / trapz(ref·ref, x=ref_freq)`. -/
def single_denominator_overlap (dir_frequency_axis dir_intensity_axis : List (List ℚ))
    (sample_index reference_index : ℕ) : ℚ :=
  let sample_intensity := idxL dir_intensity_axis sample_index
  let reference_frequency := idxL dir_frequency_axis reference_index
  let reference_intensity := idxL dir_intensity_axis reference_index
  trapz (arrMul reference_intensity sample_intensity) reference_frequency /
    trapz (arrMul reference_intensity reference_intensity) reference_frequency

/-- `double_denominator_overlap`:
`trapz(ref·sam, x=ref_freq) / sqrt(trapz(ref·ref, x=ref_freq) * trapz(sam·sam, x=ref_freq))`.
The square root puts the value in `ℝ`. -/
noncomputable def double_denominator_overlap (dir_frequency_axis dir_intensity_axis : List (List ℚ))
    (sample_index reference_index : ℕ) : ℝ :=
  let sample_intensity := idxL dir_intensity_axis sample_index
  let reference_frequency := idxL dir_frequency_axis reference_index
  let reference_intensity := idxL dir_intensity_axis reference_index
  (trapz (arrMul reference_intensity sample_intensity) reference_frequency : ℝ) /
    Real.sqrt ((trapz (arrMul reference_intensity reference_intensity) reference_frequency *
      trapz (arrMul sample_intensity sample_intensity) reference_frequency : ℚ) : ℝ)

/-- `integrated_difference`:
`(trapz(ref², x=ref_freq) - trapz(sam², x=ref_freq)) / trapz(ref², x=ref_freq)`. -/
def integrated_difference (dir_frequency_axis dir_intensity_axis : List (List ℚ))
    (sample_index reference_index : ℕ) : ℚ :=
  let sample_intensity := idxL dir_intensity_axis sample_index
  let reference_frequency := idxL dir_frequency_axis reference_index
  let reference_intensity := idxL dir_intensity_axis reference_index
  (trapz (arrMul reference_intensity reference_intensity) reference_frequency -
      trapz (arrMul sample_intensity sample_intensity) reference_frequency) /
    trapz (arrMul reference_intensity reference_intensity) reference_frequency

/-- `trapz` is homogeneous in the integrand. -/
theorem trapz_map_mul (c : ℚ) (y x : List ℚ) :
    trapz (y.map (fun v => c * v)) x = c * trapz y x := by
  induction y generalizing x with
  | nil => simp [trapz]
  | cons y0 ys ih =>
    cases ys with
    | nil => cases x with
      | nil => simp [trapz]
      | cons x0 xs => cases xs <;> simp [trapz]
    | cons y1 ys' =>
      cases x with
      | nil => simp [trapz]
      | cons x0 xs =>
        cases xs with
        | nil => simp [trapz]
        | cons x1 xs' =>
          have h := ih (x1 :: xs')
          simp only [List.map_cons] at h ⊢
          rw [trapz, trapz, h]
          ring

/-- Scaling the left factor of a pointwise product scales the product. -/
theorem arrMul_map_mul_left (c : ℚ) (a b : List ℚ) :
    arrMul (a.map (fun v => c * v)) b = (arrMul a b).map (fun v => c * v) := by
  induction a generalizing b with
  | nil => simp [arrMul]
  | cons a0 as ih =>
    cases b with
    | nil => simp [arrMul]
    | cons b0 bs =>
      simp only [List.map_cons, arrMul, List.zipWith_cons_cons, List.cons.injEq] at ih ⊢
      exact ⟨mul_assoc c a0 b0, ih bs⟩

/-- Scaling the right factor of a pointwise product scales the product. -/
theorem arrMul_map_mul_right (c : ℚ) (a b : List ℚ) :
    arrMul a (b.map (fun v => c * v)) = (arrMul a b).map (fun v => c * v) := by
  induction a generalizing b with
  | nil => simp [arrMul]
  | cons a0 as ih =>
    cases b with
    | nil => simp [arrMul]
    | cons b0 bs =>
      simp only [List.map_cons, arrMul, List.zipWith_cons_cons, List.cons.injEq] at ih ⊢
      refine ⟨by ring, ih bs⟩

/-- C2: when the sample and reference spectra are identical (same intensity
and frequency sequences) and the reference self-overlap integral is
strictly positive, `double_denominator_overlap` is exactly 1 and
`integrated_difference` is exactly 0. -/
theorem identical_spectra_overlap (F I : List (List ℚ)) (s r : ℕ)
    (hI : idxL I s = idxL I r) (hF : idxL F s = idxL F r)
    (hpos : 0 < trapz (arrMul (idxL I r) (idxL I r)) (idxL F r)) :
    double_denominator_overlap F I s r = 1 ∧ integrated_difference F I s r = 0 := by
  set R := trapz (arrMul (idxL I r) (idxL I r)) (idxL F r) with hR
  constructor
  · simp only [double_denominator_overlap, hI, ← hR]
    push_cast
    rw [Real.sqrt_mul_self (by exact_mod_cast hpos.le)]
    exact div_self (by exact_mod_cast hpos.ne.symm)
  · simp only [integrated_difference, hI, ← hR, sub_self, zero_div]

/-- Witness for C2: the two-point spectrum with frequencies `[0, 1]` and
intensities `[1, 1]`, compared with itself. -/
theorem identical_spectra_overlap_witness :
    (idxL [[1, 1]] 0 = idxL [[1, 1]] 0 ∧ idxL [[0, 1]] 0 = idxL [[0, 1]] 0 ∧
        0 < trapz (arrMul (idxL [[1, 1]] 0) (idxL [[1, 1]] 0)) (idxL [[0, 1]] 0)) ∧
      double_denominator_overlap [[0, 1]] [[1, 1]] 0 0 = 1 ∧
        integrated_difference [[0, 1]] [[1, 1]] 0 0 = 0 := by
  have h1 : 0 < trapz (arrMul (idxL [[1, 1]] 0) (idxL [[1, 1]] 0)) (idxL [[0, 1]] 0) := by
    norm_num [idxL, arrMul, trapz]
  exact ⟨⟨rfl, rfl, h1⟩, identical_spectra_overlap [[0, 1]] [[1, 1]] 0 0 rfl rfl h1⟩

/-- `2*n / sqrt (4*x) = n / sqrt x` over the reals. -/
theorem two_mul_div_sqrt_four_mul (n x : ℝ) :
    2 * n / Real.sqrt (4 * x) = n / Real.sqrt x := by
  have h4 : Real.sqrt 4 = 2 := by
    rw [show (4 : ℝ) = 2 ^ 2 by norm_num, Real.sqrt_sq (by norm_num : (0:ℝ) ≤ 2)]
  rw [Real.sqrt_mul (by norm_num : (0:ℝ) ≤ 4), h4,
    mul_div_mul_left _ _ (by norm_num : (2:ℝ) ≠ 0)]

/-- C4: with strictly positive reference and sample self-overlaps, doubling
the reference intensity sequence (pointwise) halves
`single_denominator_overlap` and leaves `double_denominator_overlap`
unchanged. -/
theorem reference_doubling_overlap (F I : List (List ℚ)) (s r : ℕ)
    (hsr : s ≠ r) (hr : r < I.length)
    (hRpos : 0 < trapz (arrMul (idxL I r) (idxL I r)) (idxL F r))
    (hSpos : 0 < trapz (arrMul (idxL I s) (idxL I s)) (idxL F r)) :
    single_denominator_overlap F (I.set r ((idxL I r).map (fun x => 2 * x))) s r =
        single_denominator_overlap F I s r / 2 ∧
      double_denominator_overlap F (I.set r ((idxL I r).map (fun x => 2 * x))) s r =
        double_denominator_overlap F I s r := by
  have hIr : idxL (I.set r ((idxL I r).map (fun x => 2 * x))) r
      = (idxL I r).map (fun x => 2 * x) := by
    simp [idxL, List.getElem?_set_self hr]
  have hIs : idxL (I.set r ((idxL I r).map (fun x => 2 * x))) s = idxL I s := by
    simp [idxL, List.getElem?_set_ne (Ne.symm hsr)]
  have hnum : trapz (arrMul ((idxL I r).map (fun x => 2 * x)) (idxL I s)) (idxL F r)
      = 2 * trapz (arrMul (idxL I r) (idxL I s)) (idxL F r) := by
    rw [arrMul_map_mul_left, trapz_map_mul]
  have hden : trapz (arrMul ((idxL I r).map (fun x => 2 * x)) ((idxL I r).map (fun x => 2 * x)))
        (idxL F r)
      = 2 * (2 * trapz (arrMul (idxL I r) (idxL I r)) (idxL F r)) := by
    rw [arrMul_map_mul_left, arrMul_map_mul_right, trapz_map_mul, trapz_map_mul]
  constructor
  · simp only [single_denominator_overlap, hIr, hIs, hnum, hden]
    rw [mul_div_mul_left _ _ (by norm_num : (2:ℚ) ≠ 0), div_div,
      mul_comm (trapz (arrMul (idxL I r) (idxL I r)) (idxL F r)) 2]
  · simp only [double_denominator_overlap, hIr, hIs, hnum, hden]
    push_cast
    rw [show (2 : ℝ) * (2 * (trapz (arrMul (idxL I r) (idxL I r)) (idxL F r) : ℝ)) *
          (trapz (arrMul (idxL I s) (idxL I s)) (idxL F r) : ℝ)
        = 4 * ((trapz (arrMul (idxL I r) (idxL I r)) (idxL F r) : ℝ) *
          (trapz (arrMul (idxL I s) (idxL I s)) (idxL F r) : ℝ)) from by ring,
      two_mul_div_sqrt_four_mul]

/-- Witness for C4: two copies of the two-point spectrum with frequencies
`[0, 1]` and intensities `[1, 1]`, sample index 0, reference index 1. -/
theorem reference_doubling_overlap_witness :
    ((0 : ℕ) ≠ 1 ∧ 1 < ([[1, 1], [1, 1]] : List (List ℚ)).length ∧
        0 < trapz (arrMul (idxL [[1, 1], [1, 1]] 1) (idxL [[1, 1], [1, 1]] 1))
          (idxL [[0, 1], [0, 1]] 1) ∧
        0 < trapz (arrMul (idxL [[1, 1], [1, 1]] 0) (idxL [[1, 1], [1, 1]] 0))
          (idxL [[0, 1], [0, 1]] 1)) ∧
      (single_denominator_overlap [[0, 1], [0, 1]]
            ([[1, 1], [1, 1]].set 1 ((idxL [[1, 1], [1, 1]] 1).map (fun x => 2 * x))) 0 1 =
          single_denominator_overlap [[0, 1], [0, 1]] [[1, 1], [1, 1]] 0 1 / 2 ∧
        double_denominator_overlap [[0, 1], [0, 1]]
            ([[1, 1], [1, 1]].set 1 ((idxL [[1, 1], [1, 1]] 1).map (fun x => 2 * x))) 0 1 =
          double_denominator_overlap [[0, 1], [0, 1]] [[1, 1], [1, 1]] 0 1) := by
  have hR : 0 < trapz (arrMul (idxL [[1, 1], [1, 1]] 1) (idxL [[1, 1], [1, 1]] 1))
      (idxL [[0, 1], [0, 1]] 1) := by
    norm_num [idxL, arrMul, trapz]
  have hS : 0 < trapz (arrMul (idxL [[1, 1], [1, 1]] 0) (idxL [[1, 1], [1, 1]] 0))
      (idxL [[0, 1], [0, 1]] 1) := by
    norm_num [idxL, arrMul, trapz]
  exact ⟨⟨by decide, by decide, hR, hS⟩,
    reference_doubling_overlap [[0, 1], [0, 1]] [[1, 1], [1, 1]] 0 1 (by decide) (by decide) hR hS⟩

/-!
## `compute_statistics` (analysis.py lines 91-118)

One loop over `b in range(len(intensities[sample_index]))` accumulates BOTH
variance numerators; both `sample_variance` and `reference_variance` are
(re)assigned inside that loop, so when the sample sequence is empty the
loop body never runs and line 110 raises `NameError` — modelled by `none`.
-/

/-- `np.average`: arithmetic mean (`nan` on the empty list in numpy; the
empty case is never reached in a `some` result below). -/
def pyAverage (l : List ℚ) : ℚ := l.sum / l.length

/-- The running accumulator `Σ_{b < n} (l[b] - m)²` of the variance loop. -/
def varianceNumerator (l : List ℚ) (m : ℚ) : ℕ → ℚ
  | 0 => 0
  | n + 1 => varianceNumerator l m n + (getQ l n - m) ^ 2

/-- `sample_variance` as left by the loop: numerator over the sample's own
length, divided by the sample's length. -/
def sampleVariance (I : List (List ℚ)) (s : ℕ) : ℚ :=
  varianceNumerator (idxL I s) (pyAverage (idxL I s)) (idxL I s).length / (idxL I s).length

/-- `reference_variance` as left by the loop: numerator accumulated over the
SAMPLE sequence's length (the shared loop index), divided by the reference's
length. -/
def referenceVariance (I : List (List ℚ)) (s r : ℕ) : ℚ :=
  varianceNumerator (idxL I r) (pyAverage (idxL I r)) (idxL I s).length / (idxL I r).length

/-- `compute_statistics`: absolute differences of mean, variance and
standard deviation; `none` models the `NameError` raised when the sample
sequence is empty. -/
noncomputable def compute_statistics (dir_intensities : List (List ℚ))
    (sample_index reference_index : ℕ) : Option (ℚ × ℚ × ℝ) :=
  if (idxL dir_intensities sample_index).length = 0 then none
  else
    let sample_mean := pyAverage (idxL dir_intensities sample_index)
    let reference_mean := pyAverage (idxL dir_intensities reference_index)
    let sample_variance := sampleVariance dir_intensities sample_index
    let reference_variance := referenceVariance dir_intensities sample_index reference_index
    some (|reference_mean - sample_mean|, |reference_variance - sample_variance|,
      |Real.sqrt (reference_variance : ℝ) - Real.sqrt (sample_variance : ℝ)|)

/-- The variance accumulator over the first `n` entries is the sum of
squared deviations of the `n`-entry prefix. -/
theorem varianceNumerator_eq_take (l : List ℚ) (m : ℚ) :
    ∀ n, n ≤ l.length →
      varianceNumerator l m n = ((l.take n).map (fun x => (x - m) ^ 2)).sum := by
  intro n
  induction n with
  | zero => intro _; simp [varianceNumerator]
  | succ n ih =>
    intro hn
    have hlt : n < l.length := Nat.lt_of_succ_le hn
    rw [varianceNumerator, ih (Nat.le_of_lt hlt), List.take_succ, List.map_append,
      List.sum_append, List.getElem?_eq_getElem hlt]
    simp [getQ, List.get?_eq_getElem?, List.getElem?_eq_getElem hlt]

/-- C6: the variance loop computes the population variance of the sample
sequence (sum of squared deviations over the sample's own length, divided
by that length), and because the loop's index bound is the sample length,
appending extra tail entries to the reference sequence (keeping the mean
argument fixed) contributes nothing to the reference variance numerator. -/
theorem compute_statistics_variance_loop (I : List (List ℚ)) (s : ℕ) :
    (sampleVariance I s =
        ((idxL I s).map (fun x => (x - pyAverage (idxL I s)) ^ 2)).sum / (idxL I s).length) ∧
      ∀ (ref tail : List ℚ) (m : ℚ), (idxL I s).length ≤ ref.length →
        varianceNumerator (ref ++ tail) m (idxL I s).length =
          varianceNumerator ref m (idxL I s).length := by
  constructor
  · rw [sampleVariance, varianceNumerator_eq_take _ _ _ (le_refl _), List.take_length]
  · intro ref tail m hn
    rw [varianceNumerator_eq_take _ _ _ (by simp; omega),
      varianceNumerator_eq_take _ _ _ hn, List.take_append_of_le_length hn]

/-- Witness for C6: sample `[1, 2]` (so the loop bound is 2) and reference
`[1, 3]` extended by the tail `[100]`: the tail does not change the
reference variance numerator. -/
theorem compute_statistics_variance_loop_witness :
    (sampleVariance [[1, 2], [1, 3, 100]] 0 =
        ((idxL [[1, 2], [1, 3, 100]] 0).map
          (fun x => (x - pyAverage (idxL [[1, 2], [1, 3, 100]] 0)) ^ 2)).sum /
          (idxL [[1, 2], [1, 3, 100]] 0).length) ∧
      ((idxL [[1, 2], [1, 3, 100]] 0).length ≤ ([1, 3] : List ℚ).length ∧
        varianceNumerator (([1, 3] : List ℚ) ++ [100]) 2 (idxL [[1, 2], [1, 3, 100]] 0).length =
          varianceNumerator ([1, 3] : List ℚ) 2 (idxL [[1, 2], [1, 3, 100]] 0).length) :=
  ⟨(compute_statistics_variance_loop [[1, 2], [1, 3, 100]] 0).1,
    ⟨by simp [idxL],
      (compute_statistics_variance_loop [[1, 2], [1, 3, 100]] 0).2 [1, 3] [100] 2
        (by simp [idxL])⟩⟩

/-- C7: for identical (and non-empty) sample and reference intensity
sequences, `compute_statistics` returns the triple `(0, 0, 0)`. -/
theorem compute_statistics_identical (I : List (List ℚ)) (s r : ℕ)
    (h : idxL I s = idxL I r) (hne : (idxL I s).length ≠ 0) :
    compute_statistics I s r = some (0, 0, 0) := by
  simp only [compute_statistics, if_neg hne, sampleVariance, referenceVariance, ← h,
    sub_self, abs_zero]

/-- Witness for C7: the collection `[[1, 2]]` compared with itself. -/
theorem compute_statistics_identical_witness :
    (idxL [[1, 2]] 0 = idxL [[1, 2]] 0 ∧ (idxL [[1, 2]] 0).length ≠ 0) ∧
      compute_statistics [[1, 2]] 0 0 = some (0, 0, 0) :=
  ⟨⟨rfl, by simp [idxL]⟩, compute_statistics_identical [[1, 2]] 0 0 rfl (by simp [idxL])⟩

/-!
## `wrong_signs` (analysis.py lines 122-148)

The Python variable `sign` is assigned only when the intensity ratio is
strictly positive or strictly negative; when the ratio is zero it keeps its
previous binding (`Option ℤ`, `none` = still unbound), and reading it while
unbound raises `NameError` (modelled by a `none` result).
-/

/-- Lines 140-143: the update of the `sign` variable from the ratio. -/
def pySign (ratio : ℚ) (current : Option ℤ) : Option ℤ :=
  if 0 < ratio then some 1 else if ratio < 0 then some (-1) else current

/-- The loop of `wrong_signs` over `k` remaining indices starting at `a`:
appends `reference_freq[a] - sample_freq[a]` to the first output list and
the current value of `sign` to the second. -/
def wrongSignsGo (sf si rf ri : List ℚ) (current : Option ℤ) :
    ℕ → ℕ → Option (List ℚ × List ℤ)
  | 0, _ => some ([], [])
  | k + 1, a =>
    (pySign (getQ si a / getQ ri a) current).bind fun sg =>
      (wrongSignsGo sf si rf ri (some sg) k (a + 1)).map
        (fun p => ((getQ rf a - getQ sf a) :: p.1, sg :: p.2))

/-- `wrong_signs`: per-index frequency displacements and intensity-ratio
signs, looping over `range(len(frequencies[reference_index]))`. -/
def wrong_signs (dir_frequencies dir_intensities : List (List ℚ))
    (sample_index reference_index : ℕ) : Option (List ℚ × List ℤ) :=
  wrongSignsGo (idxL dir_frequencies sample_index) (idxL dir_intensities sample_index)
    (idxL dir_frequencies reference_index) (idxL dir_intensities reference_index)
    none (idxL dir_frequencies reference_index).length 0

/-- Shifting a map over `List.range` by one position. -/
theorem range_map_shift {β : Type} (g : ℕ → β) (k a : ℕ) :
    (List.range (k + 1)).map (fun j => g (a + j)) =
      g a :: (List.range k).map (fun j => g (a + 1 + j)) := by
  rw [List.range_succ_eq_map, List.map_cons, List.map_map]
  refine congrArg₂ List.cons (congrArg g (Nat.add_zero a)) ?_
  refine List.map_congr_left fun j _ => ?_
  simp only [Function.comp_apply]
  congr 1
  omega

/-- When every ratio in the window is nonzero, the `wrong_signs` loop
succeeds and produces exactly the per-index displacements and signs. -/
theorem wrongSignsGo_eq_map (sf si rf ri : List ℚ) :
    ∀ (k a : ℕ) (current : Option ℤ),
      (∀ j, j < k → getQ si (a + j) / getQ ri (a + j) ≠ 0) →
      wrongSignsGo sf si rf ri current k a =
        some ((List.range k).map (fun j => getQ rf (a + j) - getQ sf (a + j)),
          (List.range k).map (fun j =>
            if 0 < getQ si (a + j) / getQ ri (a + j) then (1 : ℤ) else -1)) := by
  intro k
  induction k with
  | zero => intro a current _; simp [wrongSignsGo]
  | succ k ih =>
    intro a current hnz
    have h0 : getQ si a / getQ ri a ≠ 0 := by
      have := hnz 0 (Nat.succ_pos k)
      simpa using this
    have hshift : ∀ j, j < k → getQ si (a + 1 + j) / getQ ri (a + 1 + j) ≠ 0 := by
      intro j hj
      have := hnz (j + 1) (by omega)
      rwa [show a + (j + 1) = a + 1 + j from by omega] at this
    have hsg : ∀ cur, pySign (getQ si a / getQ ri a) cur =
        some (if 0 < getQ si a / getQ ri a then (1 : ℤ) else -1) := by
      intro cur
      rcases lt_or_gt_of_ne h0 with hneg | hpos
      · simp [pySign, if_neg (not_lt.mpr hneg.le), if_pos hneg, if_neg (not_lt.mpr hneg.le)]
      · simp [pySign, if_pos hpos]
    rw [wrongSignsGo, hsg, Option.some_bind, ih (a + 1) _ hshift]
    rw [range_map_shift (fun x => getQ rf x - getQ sf x) k a,
      range_map_shift (fun x => if 0 < getQ si x / getQ ri x then (1 : ℤ) else -1) k a]
    simp

/-- C3: on the spec's example `wrong_signs` returns displacements `[0,0,0]`
and signs `[1,-1,1]`; in general, with equal-length sequences and all
intensity ratios nonzero, entry `a` of the first output is
`reference_freq[a] - sample_freq[a]` and entry `a` of the second output is
`+1` for a strictly positive ratio and `-1` for a strictly negative one. -/
theorem wrong_signs_spec :
    (wrong_signs [[0, 1, 2], [0, 1, 2]] [[1, 2, 3], [1, -2, 3]] 1 0 =
        some ([0, 0, 0], [1, -1, 1])) ∧
      ∀ (F I : List (List ℚ)) (s r : ℕ),
        (idxL F s).length = (idxL F r).length →
        (idxL I s).length = (idxL I r).length →
        (∀ j, j < (idxL F r).length → getQ (idxL I s) j / getQ (idxL I r) j ≠ 0) →
        ∀ df sc, wrong_signs F I s r = some (df, sc) →
          ∀ a, a < (idxL F r).length →
            df.get? a = some (getQ (idxL F r) a - getQ (idxL F s) a) ∧
            sc.get? a =
              some (if 0 < getQ (idxL I s) a / getQ (idxL I r) a then (1 : ℤ) else -1) := by
  constructor
  · rw [wrong_signs]
    have h3 : (idxL [[0, 1, 2], [0, 1, 2]] 0).length = 3 := by simp [idxL]
    rw [h3, wrongSignsGo_eq_map _ _ _ _ 3 0 none ?hnz]
    case hnz =>
      intro j hj
      interval_cases j <;> norm_num [idxL, getQ]
    have hr : List.range 3 = [0, 1, 2] := by decide
    rw [hr]
    norm_num [idxL, getQ]
  · intro F I s r _ _ hnz df sc hres a ha
    rw [wrong_signs, wrongSignsGo_eq_map _ _ _ _ _ 0 none (by simpa using hnz)] at hres
    have hdf := congrArg Prod.fst (Option.some.inj hres)
    have hsc := congrArg Prod.snd (Option.some.inj hres)
    simp only at hdf hsc
    subst hdf hsc
    constructor
    · simp [List.get?_eq_getElem?, List.getElem?_map, List.getElem?_range, ha]
    · simp [List.get?_eq_getElem?, List.getElem?_map, List.getElem?_range, ha]

/-- Witness for the general part of C3: one-point spectra, sample index 0,
reference index 1, ratio `2/1`. -/
theorem wrong_signs_spec_witness :
    ((idxL [[5], [7]] 0).length = (idxL [[5], [7]] 1).length ∧
        (idxL [[2], [1]] 0).length = (idxL [[2], [1]] 1).length ∧
        (∀ j, j < (idxL [[5], [7]] 1).length →
          getQ (idxL [[2], [1]] 0) j / getQ (idxL [[2], [1]] 1) j ≠ 0) ∧
        wrong_signs [[5], [7]] [[2], [1]] 0 1 = some ([2], [1]) ∧
        0 < (idxL [[5], [7]] 1).length) ∧
      ([(2 : ℚ)].get? 0 = some (getQ (idxL [[5], [7]] 1) 0 - getQ (idxL [[5], [7]] 0) 0) ∧
        [(1 : ℤ)].get? 0 =
          some (if 0 < getQ (idxL [[2], [1]] 0) 0 / getQ (idxL [[2], [1]] 1) 0
            then (1 : ℤ) else -1)) := by
  have hnz : ∀ j, j < (idxL [[5], [7]] 1).length →
      getQ (idxL [[2], [1]] 0) j / getQ (idxL [[2], [1]] 1) j ≠ 0 := by
    intro j hj
    simp only [idxL] at hj
    norm_num at hj
    have hj0 : j = 0 := by omega
    subst hj0
    norm_num [idxL, getQ]
  have hev : wrong_signs [[5], [7]] [[2], [1]] 0 1 = some ([2], [1]) := by
    simp [wrong_signs, wrongSignsGo, pySign, idxL, getQ]
    norm_num
  exact ⟨⟨by simp [idxL], by simp [idxL], hnz, hev, by simp [idxL]⟩,
    wrong_signs_spec.2 [[5], [7]] [[2], [1]] 0 1 (by simp [idxL]) (by simp [idxL]) hnz
      [2] [1] hev 0 (by simp [idxL])⟩

/-- In a successful run, an index whose ratio is nonzero gets its own sign. -/
theorem wrongSignsGo_entry_nonzero (sf si rf ri : List ℚ) :
    ∀ (k a : ℕ) (current : Option ℤ) (df : List ℚ) (sc : List ℤ),
      wrongSignsGo sf si rf ri current k a = some (df, sc) →
      ∀ j, j < k → getQ si (a + j) / getQ ri (a + j) ≠ 0 →
        sc.get? j = some (if 0 < getQ si (a + j) / getQ ri (a + j) then (1 : ℤ) else -1) := by
  intro k
  induction k with
  | zero => intro a current df sc _ j hj; omega
  | succ k ih =>
    intro a current df sc h j hj hnz
    rw [wrongSignsGo] at h
    rcases hps : pySign (getQ si a / getQ ri a) current with _ | sg
    · rw [hps] at h; simp at h
    · rw [hps, Option.some_bind] at h
      rcases hgo : wrongSignsGo sf si rf ri (some sg) k (a + 1) with _ | p
      · rw [hgo] at h; simp at h
      · rw [hgo] at h
        simp only [Option.map_some', Option.some.injEq, Prod.mk.injEq] at h
        obtain ⟨hdf, hsc⟩ := h
        subst hdf
        subst hsc
        cases j with
        | zero =>
          have hnz' : getQ si a / getQ ri a ≠ 0 := by simpa using hnz
          have hsg0 : sg = if 0 < getQ si a / getQ ri a then (1 : ℤ) else -1 := by
            rcases lt_or_gt_of_ne hnz' with hneg | hpos
            · rw [pySign, if_neg (not_lt.mpr hneg.le), if_pos hneg] at hps
              rw [if_neg (not_lt.mpr hneg.le)]
              exact (Option.some.inj hps).symm
            · rw [pySign, if_pos hpos] at hps
              rw [if_pos hpos]
              exact (Option.some.inj hps).symm
          simp [hsg0]
        | succ n =>
          have hidx : a + (n + 1) = a + 1 + n := by omega
          rw [hidx] at hnz ⊢
          simpa using ih (a + 1) (some sg) p.1 p.2 (by rw [hgo]) n (by omega) hnz

/-- In a successful run, an index whose ratio is zero silently repeats the
sign appended at the previous index. -/
theorem wrongSignsGo_entry_zero_step (sf si rf ri : List ℚ) :
    ∀ (j k a : ℕ) (current : Option ℤ) (df : List ℚ) (sc : List ℤ),
      wrongSignsGo sf si rf ri current k a = some (df, sc) →
      j + 1 < k → getQ si (a + j + 1) / getQ ri (a + j + 1) = 0 →
        sc.get? (j + 1) = sc.get? j := by
  intro j
  induction j with
  | zero =>
    intro k a current df sc h hk hz
    obtain ⟨m, rfl⟩ : ∃ m, k = m + 2 := ⟨k - 2, by omega⟩
    rw [wrongSignsGo] at h
    rcases hps : pySign (getQ si a / getQ ri a) current with _ | sg
    · rw [hps] at h; simp at h
    · rw [hps, Option.some_bind] at h
      rw [wrongSignsGo] at h
      have hz' : getQ si (a + 1) / getQ ri (a + 1) = 0 := by simpa using hz
      rw [hz'] at h
      have hps' : pySign 0 (some sg) = some sg := by
        simp [pySign]
      rw [hps', Option.some_bind] at h
      rcases hgo : wrongSignsGo sf si rf ri (some sg) m (a + 1 + 1) with _ | q
      · rw [hgo] at h; simp at h
      · rw [hgo] at h
        simp only [Option.map_some', Option.some.injEq, Prod.mk.injEq] at h
        obtain ⟨hdf, hsc⟩ := h
        subst hdf
        subst hsc
        simp
  | succ n ih =>
    intro k a current df sc h hk hz
    obtain ⟨m, rfl⟩ : ∃ m, k = m + 1 := ⟨k - 1, by omega⟩
    rw [wrongSignsGo] at h
    rcases hps : pySign (getQ si a / getQ ri a) current with _ | sg
    · rw [hps] at h; simp at h
    · rw [hps, Option.some_bind] at h
      rcases hgo : wrongSignsGo sf si rf ri (some sg) m (a + 1) with _ | p
      · rw [hgo] at h; simp at h
      · rw [hgo] at h
        simp only [Option.map_some', Option.some.injEq, Prod.mk.injEq] at h
        obtain ⟨hdf, hsc⟩ := h
        subst hdf
        subst hsc
        have hz' : getQ si (a + 1 + n + 1) / getQ ri (a + 1 + n + 1) = 0 := by
          rw [show a + 1 + n + 1 = a + (n + 1) + 1 from by omega]
          exact hz
        simpa using ih m (a + 1) (some sg) p.1 p.2 (by rw [hgo]) (by omega) hz'

/-- C8: when the intensity ratio at an index is exactly zero no new sign is
computed.  At the first index the `sign` variable is still unbound and the
function fails with a `NameError` (result `none`); at a later index the
appended sign is silently the one computed at the most recent earlier index
`p` with a nonzero ratio (all indices strictly between `p` and the current
index `p + t + 1` having zero ratios). -/
theorem wrong_signs_zero_ratio_policy :
    (∀ (F I : List (List ℚ)) (s r : ℕ),
        0 < (idxL F r).length →
        getQ (idxL I s) 0 / getQ (idxL I r) 0 = 0 →
        wrong_signs F I s r = none) ∧
      (∀ (F I : List (List ℚ)) (s r : ℕ) (df : List ℚ) (sc : List ℤ) (p t : ℕ),
        wrong_signs F I s r = some (df, sc) →
        p + t + 1 < (idxL F r).length →
        getQ (idxL I s) p / getQ (idxL I r) p ≠ 0 →
        (∀ j, p < j → j ≤ p + t + 1 → getQ (idxL I s) j / getQ (idxL I r) j = 0) →
        sc.get? (p + t + 1) =
          some (if 0 < getQ (idxL I s) p / getQ (idxL I r) p then (1 : ℤ) else -1)) := by
  constructor
  · intro F I s r hlen hzero
    rw [wrong_signs]
    obtain ⟨m, hm⟩ : ∃ m, (idxL F r).length = m + 1 := ⟨(idxL F r).length - 1, by omega⟩
    rw [hm, wrongSignsGo, hzero]
    simp [pySign]
  · intro F I s r df sc p t hres
    rw [wrong_signs] at hres
    have hbase := wrongSignsGo_entry_nonzero (idxL F s) (idxL I s) (idxL F r) (idxL I r)
      (idxL F r).length 0 none df sc hres p
    simp only [Nat.zero_add] at hbase
    induction t with
    | zero =>
      intro hlt hp hz
      have hstep := wrongSignsGo_entry_zero_step (idxL F s) (idxL I s) (idxL F r) (idxL I r)
        p (idxL F r).length 0 none df sc hres (by omega)
        (by simpa using hz (p + 1) (by omega) (by omega))
      simp only [Nat.zero_add] at hstep
      simp only [Nat.add_zero]
      rw [hstep]
      exact hbase (by omega) hp
    | succ t ih =>
      intro hlt hp hz
      have hstep := wrongSignsGo_entry_zero_step (idxL F s) (idxL I s) (idxL F r) (idxL I r)
        (p + t + 1) (idxL F r).length 0 none df sc hres (by omega)
        (by simpa using hz (p + t + 2) (by omega) (by omega))
      simp only [Nat.zero_add] at hstep
      rw [show p + (t + 1) + 1 = p + t + 1 + 1 from by omega, hstep]
      exact ih (by omega) hp (fun j hj₁ hj₂ => hz j hj₁ (by omega))

/-- Witness for C8: part (a) at a spectrum whose single ratio is `0/3`;
part (b) at two-point spectra whose ratios are `2/1` then `0/1`. -/
theorem wrong_signs_zero_ratio_policy_witness :
    ((0 < (idxL [[1], [2]] 1).length ∧
        getQ (idxL [[0], [3]] 0) 0 / getQ (idxL [[0], [3]] 1) 0 = 0 ∧
        wrong_signs [[1], [2]] [[0], [3]] 0 1 = none) ∧
      (wrong_signs [[5, 6], [7, 8]] [[2, 0], [1, 1]] 0 1 = some ([2, 2], [1, 1]) ∧
        0 + 0 + 1 < (idxL [[5, 6], [7, 8]] 1).length ∧
        getQ (idxL [[2, 0], [1, 1]] 0) 0 / getQ (idxL [[2, 0], [1, 1]] 1) 0 ≠ 0 ∧
        (∀ j, 0 < j → j ≤ 0 + 0 + 1 →
          getQ (idxL [[2, 0], [1, 1]] 0) j / getQ (idxL [[2, 0], [1, 1]] 1) j = 0) ∧
        ([(1 : ℤ), 1].get? (0 + 0 + 1) =
          some (if 0 < getQ (idxL [[2, 0], [1, 1]] 0) 0 / getQ (idxL [[2, 0], [1, 1]] 1) 0
            then (1 : ℤ) else -1)))) := by
  have ha₁ : 0 < (idxL [[1], [2]] 1).length := by simp [idxL]
  have ha₂ : getQ (idxL [[0], [3]] 0) 0 / getQ (idxL [[0], [3]] 1) 0 = 0 := by
    norm_num [idxL, getQ]
  have hres : wrong_signs [[5, 6], [7, 8]] [[2, 0], [1, 1]] 0 1 = some ([2, 2], [1, 1]) := by
    simp [wrong_signs, wrongSignsGo, pySign, idxL, getQ]
    norm_num
  have hlt : 0 + 0 + 1 < (idxL [[5, 6], [7, 8]] 1).length := by simp [idxL]
  have hp : getQ (idxL [[2, 0], [1, 1]] 0) 0 / getQ (idxL [[2, 0], [1, 1]] 1) 0 ≠ 0 := by
    norm_num [idxL, getQ]
  have hz : ∀ j, 0 < j → j ≤ 0 + 0 + 1 →
      getQ (idxL [[2, 0], [1, 1]] 0) j / getQ (idxL [[2, 0], [1, 1]] 1) j = 0 := by
    intro j hj₁ hj₂
    have hj : j = 1 := by omega
    subst hj
    norm_num [idxL, getQ]
  exact ⟨⟨ha₁, ha₂, wrong_signs_zero_ratio_policy.1 [[1], [2]] [[0], [3]] 0 1 ha₁ ha₂⟩,
    ⟨hres, hlt, hp, hz,
      wrong_signs_zero_ratio_policy.2 [[5, 6], [7, 8]] [[2, 0], [1, 1]] 0 1
        [2, 2] [1, 1] 0 0 hres hlt hp hz⟩⟩

/-!
## `normal_mode_reordering` (analysis.py lines 152-187)

Loops over `range(len(frequencies[reference_index]))`; at the last index it
appends the sentinel `0`, otherwise it forms the discrete derivatives of
intensity with respect to frequency on both sides and the sign of their
ratio, with the same persistent `sign` variable as in `wrong_signs`.
-/

/-- Lines 170-178: the ratio of the sample and reference discrete
derivatives over the index pair `(a, a+1)`. -/
def derivativeSign (sf si rf ri : List ℚ) (a : ℕ) : ℚ :=
  ((getQ si a - getQ si (a + 1)) / (getQ sf a - getQ sf (a + 1))) /
    ((getQ ri a - getQ ri (a + 1)) / (getQ rf a - getQ rf (a + 1)))

/-- The loop of `normal_mode_reordering` over `k` remaining indices starting
at `a`, with `n = len(reference_frequency)` fixed: the last index appends
the sentinel `0` (leaving `sign` untouched), any other index appends the
updated `sign`. -/
def normalModeGo (sf si rf ri : List ℚ) (n : ℕ) (current : Option ℤ) :
    ℕ → ℕ → Option (List ℤ)
  | 0, _ => some []
  | k + 1, a =>
    if a = n - 1 then
      (normalModeGo sf si rf ri n current k (a + 1)).map (fun l => 0 :: l)
    else
      (pySign (derivativeSign sf si rf ri a) current).bind fun sg =>
        (normalModeGo sf si rf ri n (some sg) k (a + 1)).map (fun l => sg :: l)

/-- `normal_mode_reordering`: the slope-sign sequence. -/
def normal_mode_reordering (dir_frequencies dir_intensities : List (List ℚ))
    (sample_index reference_index : ℕ) : Option (List ℤ) :=
  normalModeGo (idxL dir_frequencies sample_index) (idxL dir_intensities sample_index)
    (idxL dir_frequencies reference_index) (idxL dir_intensities reference_index)
    (idxL dir_frequencies reference_index).length none
    (idxL dir_frequencies reference_index).length 0

/-- When every derivative ratio strictly before the last index is nonzero,
the `normal_mode_reordering` loop succeeds and produces the per-index
slope signs with the sentinel `0` in the last slot. -/
theorem normalModeGo_eq_map (sf si rf ri : List ℚ) (n : ℕ) :
    ∀ (k a : ℕ) (current : Option ℤ),
      a + k = n →
      (∀ j, a + j < n - 1 → derivativeSign sf si rf ri (a + j) ≠ 0) →
      normalModeGo sf si rf ri n current k a =
        some ((List.range k).map (fun j =>
          if a + j = n - 1 then (0 : ℤ)
          else if 0 < derivativeSign sf si rf ri (a + j) then 1 else -1)) := by
  intro k
  induction k with
  | zero => intro a current _ _; simp [normalModeGo]
  | succ k ih =>
    intro a current hn hnz
    rw [normalModeGo]
    by_cases hlast : a = n - 1
    · have hk0 : k = 0 := by omega
      subst hk0
      rw [normalModeGo]
      simp [hlast]
      rw [show List.range 1 = [0] from rfl]
      simp
    · have ha : a < n - 1 := by omega
      have h0 : derivativeSign sf si rf ri a ≠ 0 := by
        have := hnz 0 (by omega)
        simpa using this
      have hsg : ∀ cur, pySign (derivativeSign sf si rf ri a) cur =
          some (if 0 < derivativeSign sf si rf ri a then (1 : ℤ) else -1) := by
        intro cur
        rcases lt_or_gt_of_ne h0 with hneg | hpos
        · simp [pySign, if_neg (not_lt.mpr hneg.le), if_pos hneg]
        · simp [pySign, if_pos hpos]
      have hshift : ∀ j, a + 1 + j < n - 1 → derivativeSign sf si rf ri (a + 1 + j) ≠ 0 := by
        intro j hj
        have := hnz (j + 1) (by omega)
        rwa [show a + (j + 1) = a + 1 + j from by omega] at this
      rw [if_neg hlast, hsg, Option.some_bind, ih (a + 1) _ (by omega) hshift]
      rw [range_map_shift (fun x =>
        if x = n - 1 then (0 : ℤ)
        else if 0 < derivativeSign sf si rf ri x then 1 else -1) k a]
      simp [if_neg hlast]

/-- C5: with non-empty equal-length sequences, nonzero consecutive frequency
differences and nonzero derivative ratios, `normal_mode_reordering` returns
a sequence of the same length as the reference frequency sequence whose
last entry is the sentinel `0` and whose entry at every other index `a` is
`+1` or `-1` according to the sign of the sample/reference slope ratio over
the pair `(a, a+1)`. -/
theorem normal_mode_reordering_spec (F I : List (List ℚ)) (s r : ℕ)
    (hne : (idxL F r).length ≠ 0)
    (hlen₁ : (idxL F s).length = (idxL F r).length)
    (hlen₂ : (idxL I s).length = (idxL I r).length)
    (hlen₃ : (idxL I r).length = (idxL F r).length)
    (hfreq : ∀ a, a + 1 < (idxL F r).length →
      getQ (idxL F r) a - getQ (idxL F r) (a + 1) ≠ 0 ∧
        getQ (idxL F s) a - getQ (idxL F s) (a + 1) ≠ 0)
    (hratio : ∀ a, a + 1 < (idxL F r).length →
      derivativeSign (idxL F s) (idxL I s) (idxL F r) (idxL I r) a ≠ 0) :
    ∃ l, normal_mode_reordering F I s r = some l ∧
      l.length = (idxL F r).length ∧
      l.get? ((idxL F r).length - 1) = some 0 ∧
      ∀ a, a + 1 < (idxL F r).length →
        l.get? a = some (if 0 < derivativeSign (idxL F s) (idxL I s) (idxL F r) (idxL I r) a
          then (1 : ℤ) else -1) := by
  set n := (idxL F r).length with hn
  have hres := normalModeGo_eq_map (idxL F s) (idxL I s) (idxL F r) (idxL I r) n n 0 none
    (by omega) (by intro j hj; simpa using hratio j (by omega))
  refine ⟨_, hres, ?_, ?_, ?_⟩
  · simp
  · have hlt : n - 1 < n := by omega
    simp [List.get?_eq_getElem?, List.getElem?_map, List.getElem?_range, hlt]
  · intro a ha
    have hlt : a < n := by omega
    have hne' : (0 : ℕ) + a ≠ n - 1 := by omega
    simp only [List.get?_eq_getElem?, List.getElem?_map, List.getElem?_range, hlt,
      Nat.zero_add]
    simp [if_neg (show a ≠ n - 1 from by omega)]

/-- Witness for C5: the one-segment spectrum `frequencies = [0, 1]`,
`intensities = [1, 2]`, compared with itself (slope ratio `1`). -/
theorem normal_mode_reordering_spec_witness :
    ((idxL [[0, 1]] 0).length ≠ 0 ∧
        (∀ a, a + 1 < (idxL [[0, 1]] 0).length →
          getQ (idxL [[0, 1]] 0) a - getQ (idxL [[0, 1]] 0) (a + 1) ≠ 0 ∧
            getQ (idxL [[0, 1]] 0) a - getQ (idxL [[0, 1]] 0) (a + 1) ≠ 0) ∧
        (∀ a, a + 1 < (idxL [[0, 1]] 0).length →
          derivativeSign (idxL [[0, 1]] 0) (idxL [[1, 2]] 0) (idxL [[0, 1]] 0)
            (idxL [[1, 2]] 0) a ≠ 0)) ∧
      (∃ l, normal_mode_reordering [[0, 1]] [[1, 2]] 0 0 = some l ∧
        l.length = (idxL [[0, 1]] 0).length ∧
        l.get? ((idxL [[0, 1]] 0).length - 1) = some 0 ∧
        ∀ a, a + 1 < (idxL [[0, 1]] 0).length →
          l.get? a = some (if 0 < derivativeSign (idxL [[0, 1]] 0) (idxL [[1, 2]] 0)
            (idxL [[0, 1]] 0) (idxL [[1, 2]] 0) a then (1 : ℤ) else -1)) := by
  have hne : (idxL [[0, 1]] 0).length ≠ 0 := by simp [idxL]
  have hfreq : ∀ a, a + 1 < (idxL [[0, 1]] 0).length →
      getQ (idxL [[0, 1]] 0) a - getQ (idxL [[0, 1]] 0) (a + 1) ≠ 0 ∧
        getQ (idxL [[0, 1]] 0) a - getQ (idxL [[0, 1]] 0) (a + 1) ≠ 0 := by
    intro a ha
    simp only [idxL] at ha
    norm_num at ha
    have ha0 : a = 0 := by omega
    subst ha0
    norm_num [idxL, getQ]
  have hratio : ∀ a, a + 1 < (idxL [[0, 1]] 0).length →
      derivativeSign (idxL [[0, 1]] 0) (idxL [[1, 2]] 0) (idxL [[0, 1]] 0)
        (idxL [[1, 2]] 0) a ≠ 0 := by
    intro a ha
    simp only [idxL] at ha
    norm_num at ha
    have ha0 : a = 0 := by omega
    subst ha0
    norm_num [derivativeSign, idxL, getQ]
  exact ⟨⟨hne, hfreq, hratio⟩,
    normal_mode_reordering_spec [[0, 1]] [[1, 2]] 0 0 hne rfl rfl (by simp [idxL])
      hfreq hratio⟩

/-- C10: when the reference frequency sequence has exactly one element,
`normal_mode_reordering` returns `[0]`, whatever the sample sequences are
(the quantification over all collections shows they are never consulted). -/
theorem normal_mode_reordering_singleton (F I : List (List ℚ)) (s r : ℕ)
    (h : (idxL F r).length = 1) :
    normal_mode_reordering F I s r = some [0] := by
  rw [normal_mode_reordering, h, normalModeGo]
  simp [normalModeGo]

/-- Witness for C10: reference spectrum `[3]` with empty sample sequences. -/
theorem normal_mode_reordering_singleton_witness :
    (idxL [[], [3]] 1).length = 1 ∧
      normal_mode_reordering [[], [3]] [[], []] 0 1 = some [0] :=
  ⟨by simp [idxL], normal_mode_reordering_singleton [[], [3]] [[], []] 0 1 (by simp [idxL])⟩
